import Mathlib

/-!
Verification of the `parser-mini` combinator library (src/parser.js).

Strings are modelled as `List Char` (JS `s[0]` is `head`, `s.slice(n)` is
`drop n`, `s.startsWith(t)` is `t.isPrefixOf s`, truthiness of a string is
non-emptiness).  JS parse results `{ parsed, rest }` become `PState`;
`undefined` outcomes become `none`.  The `parsed` field of a state may be
absent in JS (e.g. the initial state built by `parseText`), which is
modelled by `Value.undefined`.

The `many` and `Parser.repeat` loops of the source can genuinely diverge
(a succeeding non-consuming inner parser), so the interpreter takes a fuel
parameter that is consumed once per loop iteration; running out of fuel is
modelled as `none`.  All other constructs ignore the fuel.
-/

/-- JS strings, modelled as lists of characters. -/
abbrev Str := List Char

/-- JS values that flow through the parsers: absent (`undefined`), strings,
booleans, arrays and plain objects (association lists, key order kept). -/
inductive Value where
  | undefined : Value
  | str : Str → Value
  | bool : Bool → Value
  | list : List Value → Value
  | obj : List (String × Value) → Value
deriving Repr

/-- A JS `{ parsed, rest }` record: the value produced so far and the
unconsumed suffix of the input. -/
structure PState where
  parsed : Value
  rest : Str
deriving Repr

/-- Property lookup on an object (first binding wins, as in the
association lists our semantics builds). -/
def getField (k : String) : List (String × Value) → Option Value
  | [] => none
  | (k1, v) :: fs => if k1 = k then some v else getField k fs

/-- `Object.assign(left, right)` on two objects: left's keys in order with
values overwritten by right's where shared, then right's new keys. -/
def objUnion (l r : List (String × Value)) : List (String × Value) :=
  l.map (fun p => match getField p.1 r with
    | some w => (p.1, w)
    | none => p)
  ++ r.filter (fun p => (getField p.1 l).isNone)

/-- The value merge performed by `bind`/`bindInversed`.  The source calls
`Object.assign(left.parsed, right.parsed)`; the documented contract
(§4.1 of the spec, and the `assert` in the source) requires both operands
to be mappings, and in that case the result is the key-wise union.
Non-mapping operands are outside the contract (JS would box primitives or
throw on `undefined`); they are modelled as returning the left operand. -/
def assignValue : Value → Value → Value
  | .obj l, .obj r => .obj (objUnion l r)
  | v, _ => v

/-- The `rest` fed to the inner parser of `bindInversed`/`seqInversed`:
the previously parsed value itself, or one named field of it.  A missing
field is JS `undefined`. -/
def extractVal (key : Option String) (v : Value) : Value :=
  match key with
  | none => v
  | some k =>
    match v with
    | .obj fs => (getField k fs).getD .undefined
    | _ => .undefined

/-- View an extracted value as text for re-parsing.  The contract expects
a string there; other shapes are modelled as empty input. -/
def valueAsStr : Value → Str
  | .str s => s
  | _ => []

/-- `cs.join('')` on the array of one-character strings produced by the
repetition of `Parser.item` (used in `Parser.quoted`). -/
def joinChars : Value → Value
  | .list vs => .str (vs.foldr (fun v acc => valueAsStr v ++ acc) [])
  | v => v

/-- Deep embedding of every parser the library can build: the primitive
constructors, the instance combinators and the two standalone algorithms
(`Parser.brackets`, `Parser.repeat`).  Caller-supplied predicates,
mappers and text converters are carried as (pure) Lean functions.
`Parser.quoted` is not a constructor: the source defines it by
composition, see `quotedE` below. -/
inductive PExpr where
  | result : Value → PExpr
  | zero : PExpr
  | item : PExpr
  | char : Char → PExpr
  | sat : (Char → Bool) → PExpr
  | string : Str → PExpr
  | peek : (Str → Bool) → PExpr
  | all : PExpr
  | endOf : PExpr
  | save : PExpr → String → PExpr
  | bind : PExpr → PExpr → PExpr
  | bindInversed : PExpr → PExpr → Option String → PExpr
  | seq : PExpr → PExpr → PExpr
  | seqInversed : PExpr → PExpr → Option String → PExpr
  | pass : PExpr → PExpr → PExpr
  | or : PExpr → PExpr → PExpr
  | many : PExpr → Nat → Nat → Option (Str → Bool) → PExpr
  | fmap : PExpr → (Value → Value) → PExpr
  | default : PExpr → Value → PExpr
  | brackets : Char → Char → PExpr
  | repeatE : PExpr → (Str → Value) → (Str → Bool) → PExpr

/-- The auxiliary `condition` check of `many`: absent conditions always
pass (`condition ? () => text && condition(text) && ... : ...`). -/
def condHolds (cond : Option (Str → Bool)) (text : Str) : Bool :=
  match cond with
  | some c => c text
  | none => true

/-- `many`'s `overflow()`: only active for a non-zero `max`
(`max ? () => iterations > max : () => false`). -/
def manyOverflow (maxB iters : Nat) : Bool :=
  decide (maxB ≠ 0) && decide (maxB < iters)

/-- `many`'s `underflow()`: only active for a non-zero `min`. -/
def manyUnderflow (minB iters : Nat) : Bool :=
  decide (minB ≠ 0) && decide (iters < minB)

/-- The `while (goOn())` loop of `many`, one fuel unit per iteration:
parse, break on failure, otherwise record the element and advance.
Returns the collected elements, the final text and the iteration count;
`none` is fuel exhaustion (divergence). -/
def manyGo (step : Str → Option PState) (cond : Option (Str → Bool)) (maxB : Nat) :
    Nat → Str → Nat → List Value → Option (List Value × Str × Nat)
  | 0, _, _, _ => none
  | fuel + 1, text, iters, els =>
    if !text.isEmpty && condHolds cond text && !manyOverflow maxB iters then
      match step text with
      | none => some (els, text, iters)
      | some r => manyGo step cond maxB fuel r.rest (iters + 1) (els ++ [r.parsed])
    else some (els, text, iters)

/-- The final `overflow() || underflow()` check of `many`. -/
def manyFinish (minB maxB : Nat) (res : List Value × Str × Nat) : Option PState :=
  if manyOverflow maxB res.2.2 || manyUnderflow minB res.2.2 then none
  else some ⟨.list res.1, res.2.1⟩

/-- `makeText()` of `Parser.repeat`: flush the pending raw characters
through the text converter as one more sequence entry, if any. -/
def flushText (fromText : Str → Value) (els : List Value) (chars : Str) : List Value :=
  if chars.isEmpty then els else els ++ [fromText chars]

/-- The `while (text && condition(text))` loop of `Parser.repeat`, one
fuel unit per iteration: on element success flush pending characters and
append the element's value, advancing to its rest; on failure move one
character into the pending accumulator.  Returns elements, pending
characters and final text; `none` is fuel exhaustion. -/
def repeatGo (step : Str → Option PState) (fromText : Str → Value) (cond : Str → Bool) :
    Nat → Str → Str → List Value → Option (List Value × Str × Str)
  | 0, _, _, _ => none
  | fuel + 1, text, chars, els =>
    if !text.isEmpty && cond text then
      match step text with
      | some r =>
          repeatGo step fromText cond fuel r.rest [] (flushText fromText els chars ++ [r.parsed])
      | none =>
          repeatGo step fromText cond fuel (text.drop 1) (chars ++ text.take 1) els
    else some (els, chars, text)

/-- The scanning loop of `Parser.brackets` over `text.drop index`:
`while (balance && index < text.length)` increment the balance on the
left bracket, decrement it on the right one, advance the index.
Returns the final `(index, balance)` pair. -/
def bracketsLoop (l r : Char) : Str → Nat → Nat → Nat × Nat
  | _, index, 0 => (index, 0)
  | [], index, bal + 1 => (index, bal + 1)
  | c :: cs, index, bal + 1 =>
    bracketsLoop l r cs (index + 1) (if c = l then bal + 2 else if c = r then bal else bal + 1)

/-- Interpreter: the `_parse` function of the parser denoted by a
`PExpr`, each case transcribing the corresponding closure of the source.
`fuel` bounds the iteration count of the `many`/`repeat` loops. -/
def parseE (fuel : Nat) : PExpr → PState → Option PState
  | .result v, input => some ⟨v, input.rest⟩
  | .zero, _ => none
  | .item, input =>
    match input.rest with
    | [] => none
    | c :: cs => some ⟨.str [c], cs⟩
  | .char c, input =>
    match input.rest with
    | [] => none
    | d :: cs => if d = c then some ⟨.str [c], cs⟩ else none
  | .sat p, input =>
    match input.rest with
    | [] => none
    | d :: cs => if p d then some ⟨.str [d], cs⟩ else none
  | .string t, input =>
    if !input.rest.isEmpty && t.isPrefixOf input.rest then
      some ⟨.str t, input.rest.drop t.length⟩
    else none
  | .peek p, input => if p input.rest then some input else none
  | .all, input => some ⟨.str input.rest, []⟩
  | .endOf, input =>
    match input.rest with
    | [] => some ⟨.bool true, []⟩
    | _ :: _ => none
  | .save P k, input =>
    match parseE fuel P input with
    | some pt => some ⟨.obj [(k, pt.parsed)], pt.rest⟩
    | none => none
  | .bind P Q, input =>
    match parseE fuel P input with
    | some l =>
      match parseE fuel Q l with
      | some r => some ⟨assignValue l.parsed r.parsed, r.rest⟩
      | none => none
    | none => none
  | .bindInversed P Q key, input =>
    match parseE fuel P input with
    | some l =>
      match parseE fuel Q ⟨.undefined, valueAsStr (extractVal key l.parsed)⟩ with
      | some r => some ⟨assignValue l.parsed r.parsed, l.rest⟩
      | none => none
    | none => none
  | .seq P Q, input =>
    match parseE fuel P input with
    | some l => parseE fuel Q l
    | none => none
  | .seqInversed P Q key, input =>
    match parseE fuel P input with
    | some l =>
      match parseE fuel Q ⟨.undefined, valueAsStr (extractVal key l.parsed)⟩ with
      | some r => some ⟨r.parsed, l.rest⟩
      | none => none
    | none => none
  | .pass P Q, input =>
    match parseE fuel P input with
    | some l =>
      match parseE fuel Q l with
      | some r => some ⟨l.parsed, r.rest⟩
      | none => none
    | none => none
  | .or P Q, input =>
    match parseE fuel P input with
    | some l => some l
    | none => parseE fuel Q input
  | .many P minB maxB cond, input =>
    match manyGo (fun t => parseE fuel P ⟨input.parsed, t⟩) cond maxB fuel input.rest 0 [] with
    | some res => manyFinish minB maxB res
    | none => none
  | .fmap P f, input =>
    match parseE fuel P input with
    | some r => some ⟨f r.parsed, r.rest⟩
    | none => none
  | .default P v, input =>
    match parseE fuel P input with
    | some r => some r
    | none => some ⟨v, input.rest⟩
  | .brackets l r, input =>
    match input.rest with
    | [] => none
    | c :: _ =>
      if c = l then
        let p := bracketsLoop l r (input.rest.drop 1) 1 1
        if p.2 = 0 then
          some ⟨.str ((input.rest.drop 1).take (p.1 - 2)), input.rest.drop p.1⟩
        else none
      else none
  | .repeatE E f cond, input =>
    match repeatGo (fun t => parseE fuel E ⟨.obj [], t⟩) f cond fuel input.rest [] [] with
    | some (els, chars, text) =>
      let out := flushText f els chars
      if out.isEmpty then none else some ⟨.list out, text⟩
    | none => none

/-- `parseText`: apply a parser to a fresh input (`{ rest: text }`,
no `parsed` field). -/
def parseText (fuel : Nat) (e : PExpr) (text : Str) : Option PState :=
  parseE fuel e ⟨.undefined, text⟩

/-- `Parser.quoted`, by composition exactly as in the source:
`exactQuote.seq(item().many(0,0, not startsWith quote).fmap(join)).pass(exactQuote)`. -/
def quotedE (q : Str) : PExpr :=
  PExpr.pass
    (PExpr.seq (PExpr.string q)
      (PExpr.fmap (PExpr.many PExpr.item 0 0 (some fun text => !q.isPrefixOf text)) joinChars))
    (PExpr.string q)

/-- Pure unbounded iteration of a parse step: `iterate step k text`
succeeds exactly when the input admits `k` initial successful
applications of the step, returning their values and the remainder.
Used to state how many iterations an input admits to `many`. -/
def iterate (step : Str → Option PState) : Nat → Str → Option (List Value × Str)
  | 0, text => some ([], text)
  | k + 1, text =>
    match step text with
    | none => none
    | some r =>
      match iterate step k r.rest with
      | some (vs, t) => some (r.parsed :: vs, t)
      | none => none

/-- Bracket-balance check, starting from nesting depth `k`: `left`
raises the depth, `right` lowers it and may never push it below zero,
and the whole text must return the depth to zero.  `balancedFrom l r 0 t`
says `t` contains no unmatched `l` or `r`. -/
def balancedFrom (l r : Char) : Nat → Str → Bool
  | k, [] => decide (k = 0)
  | k, c :: cs =>
    if c = l then balancedFrom l r (k + 1) cs
    else if c = r then
      match k with
      | 0 => false
      | k1 + 1 => balancedFrom l r k1 cs
    else balancedFrom l r k cs

/-- `t` contains no unmatched occurrence of `l` or `r`. -/
def balancedStr (l r : Char) (t : Str) : Bool := balancedFrom l r 0 t

/-- Modelled from the spec, §4.5 "Mixed repeat/interleave scanner": while
the continuation condition holds on a non-empty remainder, attempt the
element step; on its success, flush any raw characters accumulated since
the last structured element through the converter as one sequence entry
and then append the element's value, advancing to the element's
remainder; on its failure, consume exactly one character into the
pending raw-text accumulator.  When the loop ends, flush any remaining
pending text.  `none` is fuel exhaustion. -/
def interleaveSpec (step : Str → Option PState) (conv : Str → Value) (cond : Str → Bool) :
    Nat → Str → Str → List Value → Option (List Value × Str)
  | 0, _, _, _ => none
  | fuel + 1, text, pending, out =>
    if !text.isEmpty && cond text then
      match step text with
      | some r =>
        interleaveSpec step conv cond fuel r.rest []
          (if pending.isEmpty then out ++ [r.parsed] else out ++ [conv pending, r.parsed])
      | none =>
        interleaveSpec step conv cond fuel (text.drop 1) (pending ++ text.take 1) out
    else some ((if pending.isEmpty then out else out ++ [conv pending]), text)

/-- Modelled from the spec, §4.5: run the interleave scanner on an input;
fail exactly when the produced sequence is empty, otherwise return the
ordered sequence and the final remainder. -/
def interleaveRun (step : Str → Option PState) (conv : Str → Value) (cond : Str → Bool)
    (fuel : Nat) (text : Str) : Option PState :=
  match interleaveSpec step conv cond fuel text [] [] with
  | none => none
  | some (out, text2) => if out.isEmpty then none else some ⟨.list out, text2⟩

/-! ## Remainder-suffix invariant -/

/-- If every step of the `many` loop leaves a suffix, so does the loop. -/
theorem manyGo_suffix {step : Str → Option PState} {cond : Option (Str → Bool)} {maxB : Nat}
    (hstep : ∀ t r, step t = some r → r.rest <:+ t) :
    ∀ fuel text iters els els2 text2 iters2,
      manyGo step cond maxB fuel text iters els = some (els2, text2, iters2) →
      text2 <:+ text := by
  intro fuel
  induction fuel with
  | zero => intro text iters els els2 text2 iters2 h; simp [manyGo] at h
  | succ f ih =>
    intro text iters els els2 text2 iters2 h
    rw [manyGo] at h
    split at h
    · cases hs : step text with
      | none =>
        rw [hs] at h
        injection h with h
        cases h
        exact List.suffix_refl _
      | some r =>
        rw [hs] at h
        exact (ih _ _ _ _ _ _ h).trans (hstep _ _ hs)
    · injection h with h
      cases h
      exact List.suffix_refl _

/-- If every step of the `repeat` loop leaves a suffix, so does the loop
(on element failure it drops one character, also a suffix). -/
theorem repeatGo_suffix {step : Str → Option PState} {fromText : Str → Value} {cond : Str → Bool}
    (hstep : ∀ t r, step t = some r → r.rest <:+ t) :
    ∀ fuel text chars els els2 chars2 text2,
      repeatGo step fromText cond fuel text chars els = some (els2, chars2, text2) →
      text2 <:+ text := by
  intro fuel
  induction fuel with
  | zero => intro text chars els els2 chars2 text2 h; simp [repeatGo] at h
  | succ f ih =>
    intro text chars els els2 chars2 text2 h
    rw [repeatGo] at h
    split at h
    · cases hs : step text with
      | none =>
        rw [hs] at h
        exact (ih _ _ _ _ _ _ h).trans (List.drop_suffix 1 text)
      | some r =>
        rw [hs] at h
        exact (ih _ _ _ _ _ _ h).trans (hstep _ _ hs)
    · injection h with h
      cases h
      exact List.suffix_refl _

/-- Every successful parse leaves a remainder that is a suffix of the
input state's remainder, whatever the parser expression. -/
theorem parseE_suffix (fuel : Nat) :
    ∀ e input out, parseE fuel e input = some out → out.rest <:+ input.rest := by
  intro e
  induction e with
  | result v =>
    intro input out h
    injection h with h
    cases h
    exact List.suffix_refl _
  | zero => intro input out h; simp [parseE] at h
  | item =>
    intro input out h
    rw [parseE] at h
    cases hr : input.rest with
    | nil => rw [hr] at h; simp at h
    | cons c cs =>
      rw [hr] at h
      injection h with h
      cases h
      exact List.suffix_cons _ _
  | char c =>
    intro input out h
    rw [parseE] at h
    cases hr : input.rest with
    | nil => rw [hr] at h; simp at h
    | cons d cs =>
      rw [hr] at h
      dsimp only at h
      split at h
      · injection h with h
        cases h
        exact List.suffix_cons _ _
      · exact absurd h (by simp)
  | sat p =>
    intro input out h
    rw [parseE] at h
    cases hr : input.rest with
    | nil => rw [hr] at h; simp at h
    | cons d cs =>
      rw [hr] at h
      dsimp only at h
      split at h
      · injection h with h
        cases h
        exact List.suffix_cons _ _
      · exact absurd h (by simp)
  | string t =>
    intro input out h
    rw [parseE] at h
    split at h
    · injection h with h
      cases h
      exact List.drop_suffix _ _
    · exact absurd h (by simp)
  | peek p =>
    intro input out h
    rw [parseE] at h
    split at h
    · injection h with h
      cases h
      exact List.suffix_refl _
    · exact absurd h (by simp)
  | all =>
    intro input out h
    injection h with h
    cases h
    exact List.nil_suffix
  | endOf =>
    intro input out h
    rw [parseE] at h
    cases hr : input.rest with
    | nil =>
      rw [hr] at h
      injection h with h
      cases h
      exact List.nil_suffix
    | cons d cs => rw [hr] at h; simp at h
  | save P k ih =>
    intro input out h
    rw [parseE] at h
    cases hp : parseE fuel P input with
    | none => rw [hp] at h; exact absurd h (by simp)
    | some pt =>
      rw [hp] at h
      injection h with h
      cases h
      exact ih input pt hp
  | bind P Q ihP ihQ =>
    intro input out h
    rw [parseE] at h
    cases hp : parseE fuel P input with
    | none => rw [hp] at h; exact absurd h (by simp)
    | some l =>
      rw [hp] at h
      dsimp only at h
      cases hq : parseE fuel Q l with
      | none => rw [hq] at h; exact absurd h (by simp)
      | some r =>
        rw [hq] at h
        injection h with h
        cases h
        exact (ihQ l _ hq).trans (ihP input l hp)
  | bindInversed P Q key ihP ihQ =>
    intro input out h
    rw [parseE] at h
    cases hp : parseE fuel P input with
    | none => rw [hp] at h; exact absurd h (by simp)
    | some l =>
      rw [hp] at h
      dsimp only at h
      cases hq : parseE fuel Q ⟨.undefined, valueAsStr (extractVal key l.parsed)⟩ with
      | none => rw [hq] at h; exact absurd h (by simp)
      | some r =>
        rw [hq] at h
        injection h with h
        cases h
        exact ihP input l hp
  | seq P Q ihP ihQ =>
    intro input out h
    rw [parseE] at h
    cases hp : parseE fuel P input with
    | none => rw [hp] at h; exact absurd h (by simp)
    | some l =>
      rw [hp] at h
      dsimp only at h
      exact (ihQ l out h).trans (ihP input l hp)
  | seqInversed P Q key ihP ihQ =>
    intro input out h
    rw [parseE] at h
    cases hp : parseE fuel P input with
    | none => rw [hp] at h; exact absurd h (by simp)
    | some l =>
      rw [hp] at h
      dsimp only at h
      cases hq : parseE fuel Q ⟨.undefined, valueAsStr (extractVal key l.parsed)⟩ with
      | none => rw [hq] at h; exact absurd h (by simp)
      | some r =>
        rw [hq] at h
        injection h with h
        cases h
        exact ihP input l hp
  | pass P Q ihP ihQ =>
    intro input out h
    rw [parseE] at h
    cases hp : parseE fuel P input with
    | none => rw [hp] at h; exact absurd h (by simp)
    | some l =>
      rw [hp] at h
      dsimp only at h
      cases hq : parseE fuel Q l with
      | none => rw [hq] at h; exact absurd h (by simp)
      | some r =>
        rw [hq] at h
        injection h with h
        cases h
        exact (ihQ l _ hq).trans (ihP input l hp)
  | or P Q ihP ihQ =>
    intro input out h
    rw [parseE] at h
    cases hp : parseE fuel P input with
    | none => rw [hp] at h; exact ihQ input out h
    | some l =>
      rw [hp] at h
      injection h with h
      cases h
      exact ihP input _ hp
  | many P minB maxB cond ih =>
    intro input out h
    rw [parseE] at h
    cases hm : manyGo (fun t => parseE fuel P ⟨input.parsed, t⟩) cond maxB fuel input.rest 0 [] with
    | none => rw [hm] at h; exact absurd h (by simp)
    | some res =>
      rw [hm] at h
      dsimp only at h
      obtain ⟨els, text2, iters⟩ := res
      simp only [manyFinish] at h
      split at h
      · exact absurd h (by simp)
      · injection h with h
        cases h
        exact manyGo_suffix (fun t r hr => ih _ _ hr) _ _ _ _ _ _ _ hm
  | fmap P f ih =>
    intro input out h
    rw [parseE] at h
    cases hp : parseE fuel P input with
    | none => rw [hp] at h; exact absurd h (by simp)
    | some r =>
      rw [hp] at h
      injection h with h
      cases h
      exact ih input r hp
  | default P v ih =>
    intro input out h
    rw [parseE] at h
    cases hp : parseE fuel P input with
    | none =>
      rw [hp] at h
      injection h with h
      cases h
      exact List.suffix_refl _
    | some r =>
      rw [hp] at h
      injection h with h
      cases h
      exact ih input _ hp
  | brackets l r =>
    intro input out h
    rw [parseE] at h
    cases hr : input.rest with
    | nil => rw [hr] at h; simp at h
    | cons c cs =>
      rw [hr] at h
      dsimp only at h
      split at h
      · split at h
        · injection h with h
          cases h
          exact List.drop_suffix _ _
        · exact absurd h (by simp)
      · exact absurd h (by simp)
  | repeatE E f cond ih =>
    intro input out h
    rw [parseE] at h
    cases hm : repeatGo (fun t => parseE fuel E ⟨.obj [], t⟩) f cond fuel input.rest [] [] with
    | none => rw [hm] at h; exact absurd h (by simp)
    | some res =>
      rw [hm] at h
      dsimp only at h
      obtain ⟨els, chars, text2⟩ := res
      dsimp only at h
      split at h
      · exact absurd h (by simp)
      · injection h with h
        cases h
        exact repeatGo_suffix (fun t rr hr => ih _ _ hr) _ _ _ _ _ _ _ hm

/-- C1: for every parser built from the library's constructors and
combinators and every input, `run` either fails or returns a remainder
that is a suffix of the input; in particular the outer remainder of
`bindInversed`/`seqInversed` (whose inner parser runs on the extracted
value) is still a suffix of the input. -/
theorem run_remainder_suffix (fuel : Nat) (e : PExpr) (s : Str) (out : PState)
    (h : parseText fuel e s = some out) : out.rest <:+ s :=
  parseE_suffix fuel e ⟨.undefined, s⟩ out h

/-- Witness for C1: `char 'a'` on `"ab"` leaves `"b"`, a suffix of `"ab"`. -/
theorem run_remainder_suffix_witness : (['b'] : Str) <:+ ['a', 'b'] :=
  run_remainder_suffix 1 (.char 'a') ['a', 'b'] ⟨.str ['a'], ['b']⟩ rfl

/-! ## Balanced brackets -/

/-- The bracket scan over `t ++ [right]`, entered at depth `k + 1` with
`t` balanced from depth `k`, stops exactly on the final `right` with
balance zero, having consumed `t.length + 1` characters. -/
theorem bracketsLoop_balanced {l r : Char} (hne : l ≠ r) :
    ∀ t k idx, balancedFrom l r k t = true →
      bracketsLoop l r (t ++ [r]) idx (k + 1) = (idx + t.length + 1, 0) := by
  intro t
  induction t with
  | nil =>
    intro k idx hb
    rw [balancedFrom.eq_def] at hb
    simp at hb
    subst hb
    rw [List.nil_append]
    rw [bracketsLoop]
    rw [if_neg (fun hrl => hne hrl.symm), if_pos rfl]
    rw [bracketsLoop]
    rfl
  | cons c cs ih =>
    intro k idx hb
    rw [balancedFrom.eq_def] at hb
    dsimp only at hb
    rw [List.cons_append, bracketsLoop]
    by_cases hcl : c = l
    · rw [if_pos hcl] at hb ⊢
      rw [show k + 1 + 1 = (k + 1) + 1 from rfl, ih (k + 1) (idx + 1) hb, List.length_cons]
      refine congrArg (fun n => (n, 0)) ?_
      omega
    · rw [if_neg hcl] at hb ⊢
      by_cases hcr : c = r
      · rw [if_pos hcr] at hb ⊢
        cases k with
        | zero => simp at hb
        | succ k1 =>
          rw [ih k1 (idx + 1) hb, List.length_cons]
          refine congrArg (fun n => (n, 0)) ?_
          omega
      · rw [if_neg hcr] at hb ⊢
        rw [ih k (idx + 1) hb, List.length_cons]
        refine congrArg (fun n => (n, 0)) ?_
        omega

/-- C4: for distinct bracket characters `l ≠ r` and any text `t` with no
unmatched occurrence of `l` or `r`, running `brackets(l, r)` on
`l + t + r` succeeds with value exactly `t` and the remainder advanced
past the matched closing bracket (here: empty, as nothing follows),
whatever the nesting depth inside `t`. -/
theorem brackets_roundtrip (fuel : Nat) (l r : Char) (t : Str)
    (hne : l ≠ r) (hbal : balancedStr l r t = true) :
    parseText fuel (.brackets l r) (l :: (t ++ [r])) = some ⟨.str t, []⟩ := by
  rw [parseText, parseE]
  dsimp only
  rw [if_pos rfl]
  have hloop : bracketsLoop l r (List.drop 1 (l :: (t ++ [r]))) 1 1 = (1 + t.length + 1, 0) :=
    bracketsLoop_balanced hne t 0 1 hbal
  rw [hloop]
  dsimp only
  rw [if_pos rfl]
  have h1 : 1 + t.length + 1 - 2 = t.length := by omega
  have h2 : (t ++ [r]).take t.length = t := List.take_left t [r]
  have h3 : List.drop (1 + t.length + 1) (l :: (t ++ [r])) = [] := by
    apply List.drop_eq_nil_of_le
    simp
    omega
  rw [h1, show List.drop 1 (l :: (t ++ [r])) = t ++ [r] from rfl, h2, h3]

/-- Witness for C4: `brackets('(', ')')` on `"(a(b)c)"` returns `"a(b)c"`. -/
theorem brackets_roundtrip_witness :
    parseText 1 (.brackets '(' ')') ('(' :: ("a(b)c".toList ++ [')'])) =
      some ⟨.str "a(b)c".toList, []⟩ :=
  brackets_roundtrip 1 '(' ')' "a(b)c".toList (by decide) (by decide)

/-- With identical markers the scan's balance can only grow: the marker
always hits the `left` branch first, so the balance never returns to
zero. -/
theorem bracketsLoop_same_ne_zero (c : Char) :
    ∀ cs idx bal, (bracketsLoop c c cs idx (bal + 1)).2 ≠ 0 := by
  intro cs
  induction cs with
  | nil => intro idx bal; rw [bracketsLoop]; simp
  | cons d ds ih =>
    intro idx bal
    rw [bracketsLoop]
    by_cases hdc : d = c
    · rw [if_pos hdc]
      exact ih (idx + 1) (bal + 1)
    · rw [if_neg hdc, if_neg hdc]
      exact ih (idx + 1) bal

/-- C8 (amended): calling `brackets` with identical left/right markers is
only flagged by a non-fatal diagnostic (`console.assert` logs and
continues); the parser is constructed normally and returns an ordinary
parse Failure on every input, since the balance can never reach zero. -/
theorem brackets_same_marker_failure (c : Char) (fuel : Nat) (input : PState) :
    parseE fuel (.brackets c c) input = none := by
  rw [parseE]
  cases hr : input.rest with
  | nil => rfl
  | cons d ds =>
    dsimp only
    by_cases hdc : d = c
    · rw [if_pos hdc]
      rw [if_neg (bracketsLoop_same_ne_zero c (List.drop 1 (d :: ds)) 1 0)]
    · rw [if_neg hdc]

/-- Counterexample for C8 as stated: `brackets('a', 'a')` is not a hard,
immediate fault — the composed parser runs and yields an ordinary parse
Failure outcome (here on `"aa"`, which starts with the marker, and on
`"aba"`). -/
theorem brackets_same_marker_counterexample :
    parseText 5 (.brackets 'a' 'a') ['a', 'a'] = none ∧
    parseText 5 (.brackets 'a' 'a') ['a', 'b', 'a'] = none :=
  ⟨rfl, rfl⟩

/-! ## The literal-string parser -/

/-- Counterexample for C7 as stated: the empty string starts with the
empty template, yet `literal("")` on `""` returns Failure (the source
first requires a truthy, i.e. non-empty, remainder). -/
theorem string_empty_counterexample :
    ([] : Str) <+: ([] : Str) ∧ parseText 1 (.string []) [] = none :=
  ⟨List.nil_prefix, rfl⟩

/-- C7 (amended): `literal(s)` succeeds exactly when the input text is
non-empty and starts with `s`, in which case the value is `s` and the
remainder is the input advanced by `length s`; otherwise it fails.  (The
only divergence from the claim is the empty input, rejected even for the
empty template.) -/
theorem string_characterization (fuel : Nat) (s x : Str) (v : Value) (out : PState) :
    parseE fuel (.string s) ⟨v, x⟩ = some out ↔
      x ≠ [] ∧ s <+: x ∧ out = ⟨.str s, x.drop s.length⟩ := by
  rw [parseE]
  constructor
  · intro h
    split at h
    · next hc =>
      rw [Bool.and_eq_true, Bool.not_eq_true', List.isEmpty_eq_false,
        List.isPrefixOf_iff_prefix] at hc
      injection h with h
      exact ⟨hc.1, hc.2, h.symm⟩
    · exact absurd h (by simp)
  · intro ⟨h1, h2, h3⟩
    rw [if_pos, h3]
    rw [Bool.and_eq_true, Bool.not_eq_true', List.isEmpty_eq_false,
      List.isPrefixOf_iff_prefix]
    exact ⟨h1, h2⟩

/-! ## The `many` repetition -/

/-- `char c` strictly consumes input whenever it succeeds. -/
theorem char_consumes (fuel : Nat) (c : Char) (pv : Value) :
    ∀ t r, parseE fuel (.char c) ⟨pv, t⟩ = some r → r.rest.length < t.length := by
  intro t r h
  rw [parseE] at h
  cases t with
  | nil => simp at h
  | cons d ds =>
    dsimp only at h
    split at h
    · injection h with h
      cases h
      simp
    · simp at h

/-- A run of `many`'s loop along `k` admissible iterations that cannot
continue afterwards (input exhausted or next attempt failing), staying
within the `max` bound, collects exactly those `k` values. -/
theorem manyGo_exact {step : Str → Option PState} {maxB : Nat}
    (hcons : ∀ t r, step t = some r → r.rest.length < t.length) :
    ∀ k text vs rest2 fuel iters els,
      iterate step k text = some (vs, rest2) →
      iters + k ≤ maxB →
      (rest2 = [] ∨ step rest2 = none) →
      k < fuel →
      manyGo step none maxB fuel text iters els = some (els ++ vs, rest2, iters + k) := by
  intro k
  induction k with
  | zero =>
    intro text vs rest2 fuel iters els hit hle hstop hfuel
    rw [iterate] at hit
    injection hit with hit
    injection hit with h1 h2
    subst h1
    subst h2
    cases fuel with
    | zero => omega
    | succ f =>
      by_cases htext : text.isEmpty
      · rw [manyGo]
        rw [if_neg (by simp [htext])]
        simp
      · have hov : manyOverflow maxB iters = false := by
          rw [manyOverflow]
          simp only [Bool.and_eq_false_imp, decide_eq_true_eq, decide_eq_false_iff_not]
          omega
        rw [manyGo, if_pos (by simp [htext, condHolds, hov])]
        cases hstop with
        | inl hnil => rw [hnil] at htext; simp at htext
        | inr hfail => rw [hfail]; simp
  | succ k ih =>
    intro text vs rest2 fuel iters els hit hle hstop hfuel
    rw [iterate] at hit
    cases hs : step text with
    | none => rw [hs] at hit; simp at hit
    | some r =>
      rw [hs] at hit
      dsimp only at hit
      cases hit2 : iterate step k r.rest with
      | none => rw [hit2] at hit; simp at hit
      | some p =>
        obtain ⟨vs1, t1⟩ := p
        rw [hit2] at hit
        dsimp only at hit
        injection hit with hit
        injection hit with h1 h2
        subst h2
        subst h1
        have htext : text.isEmpty = false := by
          have := hcons _ _ hs
          cases text with
          | nil => simp at this
          | cons => rfl
        have hov : manyOverflow maxB iters = false := by
          rw [manyOverflow]
          simp only [Bool.and_eq_false_imp, decide_eq_true_eq, decide_eq_false_iff_not]
          omega
        cases fuel with
        | zero => omega
        | succ f =>
          rw [manyGo, if_pos (by simp [htext, condHolds, hov]), hs]
          dsimp only
          rw [ih r.rest vs1 t1 f (iters + 1) (els ++ [r.parsed]) hit2 (by omega) hstop (by omega)]
          have harr : (els ++ [r.parsed]) ++ vs1 = els ++ r.parsed :: vs1 := by simp
          have hnat : iters + 1 + k = iters + (k + 1) := by omega
          rw [harr, hnat]

/-- If the input admits one more admissible iteration than `max`, the
loop performs all `max + 1` of them and stops on the overflow check. -/
theorem manyGo_overflow_run {step : Str → Option PState} {maxB : Nat}
    (hcons : ∀ t r, step t = some r → r.rest.length < t.length) (hmax : maxB ≠ 0) :
    ∀ k text vs rest2 fuel iters els,
      iterate step k text = some (vs, rest2) →
      iters + k = maxB + 1 →
      k < fuel →
      manyGo step none maxB fuel text iters els = some (els ++ vs, rest2, maxB + 1) := by
  intro k
  induction k with
  | zero =>
    intro text vs rest2 fuel iters els hit heq hfuel
    rw [iterate] at hit
    injection hit with hit
    injection hit with h1 h2
    subst h1
    subst h2
    cases fuel with
    | zero => omega
    | succ f =>
      have hov : manyOverflow maxB iters = true := by
        rw [manyOverflow]
        simp only [Bool.and_eq_true, decide_eq_true_eq]
        omega
      rw [manyGo, if_neg (by simp [hov])]
      rw [show iters = maxB + 1 from by omega]
      simp
  | succ k ih =>
    intro text vs rest2 fuel iters els hit heq hfuel
    rw [iterate] at hit
    cases hs : step text with
    | none => rw [hs] at hit; simp at hit
    | some r =>
      rw [hs] at hit
      dsimp only at hit
      cases hit2 : iterate step k r.rest with
      | none => rw [hit2] at hit; simp at hit
      | some p =>
        obtain ⟨vs1, t1⟩ := p
        rw [hit2] at hit
        dsimp only at hit
        injection hit with hit
        injection hit with h1 h2
        subst h2
        subst h1
        have htext : text.isEmpty = false := by
          have := hcons _ _ hs
          cases text with
          | nil => simp at this
          | cons => rfl
        have hov : manyOverflow maxB iters = false := by
          rw [manyOverflow]
          simp only [Bool.and_eq_false_imp, decide_eq_true_eq, decide_eq_false_iff_not]
          omega
        cases fuel with
        | zero => omega
        | succ f =>
          rw [manyGo, if_pos (by simp [htext, condHolds, hov]), hs]
          dsimp only
          rw [ih r.rest vs1 t1 f (iters + 1) (els ++ [r.parsed]) hit2 (by omega) (by omega)]
          have harr : (els ++ [r.parsed]) ++ vs1 = els ++ r.parsed :: vs1 := by simp
          rw [harr]

/-- The loop's element count: each iteration pushes exactly one value,
so the final count minus the initial one is the number of new
elements. -/
theorem manyGo_count {step : Str → Option PState} {cond : Option (Str → Bool)} {maxB : Nat} :
    ∀ fuel text iters els els2 text2 iters2,
      manyGo step cond maxB fuel text iters els = some (els2, text2, iters2) →
      els2.length + iters = els.length + iters2 ∧ iters ≤ iters2 := by
  intro fuel
  induction fuel with
  | zero => intro text iters els els2 text2 iters2 h; simp [manyGo] at h
  | succ f ih =>
    intro text iters els els2 text2 iters2 h
    rw [manyGo] at h
    split at h
    · cases hs : step text with
      | none =>
        rw [hs] at h
        injection h with h
        injection h with h1 h2
        injection h2 with h2 h3
        subst h1
        subst h3
        omega
      | some r =>
        rw [hs] at h
        have := ih _ _ _ _ _ _ h
        simp at this
        omega
    · injection h with h
      injection h with h1 h2
      injection h2 with h2 h3
      subst h1
      subst h3
      omega

/-- If fewer than `k` iterations are admissible (with `k` within the
overflow bound), the loop stops with an iteration count below
`iters + k`. -/
theorem manyGo_iterate_none {step : Str → Option PState} {maxB : Nat}
    (hcons : ∀ t r, step t = some r → r.rest.length < t.length) :
    ∀ k text fuel iters els,
      iterate step k text = none →
      iters + k ≤ maxB + 1 →
      k < fuel →
      ∃ els2 text2 iters2,
        manyGo step none maxB fuel text iters els = some (els2, text2, iters2) ∧
        iters2 < iters + k := by
  intro k
  induction k with
  | zero => intro text fuel iters els hit hle hfuel; rw [iterate] at hit; simp at hit
  | succ k ih =>
    intro text fuel iters els hit hle hfuel
    rw [iterate] at hit
    cases fuel with
    | zero => omega
    | succ f =>
      cases hs : step text with
      | none =>
        by_cases htext : text.isEmpty
        · rw [manyGo, if_neg (by simp [htext])]
          exact ⟨els, text, iters, rfl, by omega⟩
        · have hov : manyOverflow maxB iters = false := by
            rw [manyOverflow]
            simp only [Bool.and_eq_false_imp, decide_eq_true_eq, decide_eq_false_iff_not]
            omega
          rw [manyGo, if_pos (by simp [htext, condHolds, hov]), hs]
          exact ⟨els, text, iters, rfl, by omega⟩
      | some r =>
        rw [hs] at hit
        dsimp only at hit
        cases hit2 : iterate step k r.rest with
        | some p => rw [hit2] at hit; obtain ⟨a, b⟩ := p; simp at hit
        | none =>
          have htext : text.isEmpty = false := by
            have := hcons _ _ hs
            cases text with
            | nil => simp at this
            | cons => rfl
          have hov : manyOverflow maxB iters = false := by
            rw [manyOverflow]
            simp only [Bool.and_eq_false_imp, decide_eq_true_eq, decide_eq_false_iff_not]
            omega
          rw [manyGo, if_pos (by simp [htext, condHolds, hov]), hs]
          obtain ⟨els2, text2, iters2, hm, hlt⟩ :=
            ih r.rest f (iters + 1) (els ++ [r.parsed]) hit2 (by omega) (by omega)
          exact ⟨els2, text2, iters2, hm, by omega⟩

/-- Counterexample for C2 as stated: with `min = max = 1`, the input
`"aa"` admits at least `max` initial successes of `char 'a'` (the first
conjunct shows one), yet `many` returns Failure instead of succeeding
with the first `max` values — the loop performs `max + 1` iterations and
then fails the overflow check. -/
theorem many_overflow_counterexample :
    parseText 10 (.char 'a') ['a', 'a'] = some ⟨.str ['a'], ['a']⟩ ∧
    parseText 10 (.many (.char 'a') 1 1 none) ['a', 'a'] = none :=
  ⟨rfl, rfl⟩

/-- C2 (amended): for nonzero `min ≤ max` and a strictly consuming
parser, (a) if the input admits exactly `max` initial successful
iterations (nothing left, or the next attempt failing), `many` succeeds
with those `max` values and the remainder after them; (b) if the input
admits `max + 1` successful iterations, `many` iterates `max + 1` times
and fails on overflow; (c) whenever `many` succeeds its sequence length
lies within `[min, max]`; (d) with fewer than `min` admissible
iterations it fails. -/
theorem many_bounds (fuel : Nat) (P : PExpr) (pv : Value) (minB maxB : Nat) (text : Str)
    (hmin : minB ≠ 0) (hmax : maxB ≠ 0) (hle : minB ≤ maxB)
    (hcons : ∀ t r, parseE fuel P ⟨pv, t⟩ = some r → r.rest.length < t.length) :
    (∀ vs rest2, iterate (fun t => parseE fuel P ⟨pv, t⟩) maxB text = some (vs, rest2) →
        (rest2 = [] ∨ parseE fuel P ⟨pv, rest2⟩ = none) → maxB < fuel →
        parseE fuel (.many P minB maxB none) ⟨pv, text⟩ = some ⟨.list vs, rest2⟩) ∧
    (∀ vs rest2, iterate (fun t => parseE fuel P ⟨pv, t⟩) (maxB + 1) text = some (vs, rest2) →
        maxB + 1 < fuel →
        parseE fuel (.many P minB maxB none) ⟨pv, text⟩ = none) ∧
    (∀ cond out, parseE fuel (.many P minB maxB cond) ⟨pv, text⟩ = some out →
        ∃ els, out.parsed = .list els ∧ minB ≤ els.length ∧ els.length ≤ maxB) ∧
    (iterate (fun t => parseE fuel P ⟨pv, t⟩) minB text = none → minB < fuel →
        parseE fuel (.many P minB maxB none) ⟨pv, text⟩ = none) := by
  refine ⟨?_, ?_, ?_, ?_⟩
  · intro vs rest2 hit hstop hfuel
    rw [parseE]
    dsimp only
    rw [manyGo_exact hcons maxB text vs rest2 fuel 0 [] hit (by omega) hstop (by omega)]
    dsimp only
    rw [manyFinish]
    rw [if_neg]
    · simp
    · rw [manyOverflow, manyUnderflow]
      simp only [Bool.or_eq_true, Bool.and_eq_true, decide_eq_true_eq]
      omega
  · intro vs rest2 hit hfuel
    rw [parseE]
    dsimp only
    rw [manyGo_overflow_run hcons hmax (maxB + 1) text vs rest2 fuel 0 [] hit (by omega) (by omega)]
    dsimp only
    rw [manyFinish]
    rw [if_pos]
    rw [manyOverflow]
    simp only [Bool.or_eq_true, Bool.and_eq_true, decide_eq_true_eq]
    exact Or.inl ⟨hmax, by omega⟩
  · intro cond out h
    rw [parseE] at h
    cases hm : manyGo (fun t => parseE fuel P ⟨(⟨pv, text⟩ : PState).parsed, t⟩) cond maxB fuel
        (⟨pv, text⟩ : PState).rest 0 [] with
    | none => rw [hm] at h; simp at h
    | some res =>
      rw [hm] at h
      obtain ⟨els2, text2, iters2⟩ := res
      dsimp only at h
      rw [manyFinish] at h
      split at h
      · simp at h
      · next hcond =>
        injection h with h
        rw [manyOverflow, manyUnderflow] at hcond
        simp only [Bool.or_eq_true, Bool.and_eq_true, decide_eq_true_eq, not_or, not_and] at hcond
        have hcount := manyGo_count fuel text 0 [] els2 text2 iters2 hm
        simp at hcount
        refine ⟨els2, by rw [← h], ?_, ?_⟩
        · omega
        · omega
  · intro hnone hfuel
    rw [parseE]
    dsimp only
    obtain ⟨els2, text2, iters2, hm, hlt⟩ :=
      @manyGo_iterate_none (fun t => parseE fuel P ⟨pv, t⟩) maxB hcons minB text fuel 0 []
        hnone (by omega) (by omega)
    rw [hm]
    dsimp only
    rw [manyFinish]
    rw [if_pos]
    rw [manyUnderflow]
    simp only [Bool.or_eq_true, Bool.and_eq_true, decide_eq_true_eq]
    exact Or.inr ⟨hmin, by omega⟩

/-- Witness for C2 (amended), part (a): `many(char 'a', 1, 2)` on `"aa"`
collects exactly the two admissible matches. -/
theorem many_bounds_witness :
    parseText 10 (.many (.char 'a') 1 2 none) ['a', 'a'] =
      some ⟨.list [.str ['a'], .str ['a']], []⟩ :=
  (many_bounds 10 (.char 'a') .undefined 1 2 ['a', 'a'] (by decide) (by decide) (by decide)
      (char_consumes 10 'a' .undefined)).1 [.str ['a'], .str ['a']] [] rfl (Or.inl rfl) (by decide)

/-! ## The quoted-span parser -/

/-- One successful iteration of the `many` loop. -/
theorem manyGo_step_some {step : Str → Option PState} {cond : Option (Str → Bool)}
    {maxB fuel : Nat} {text : Str} {iters : Nat} {els : List Value} {r : PState}
    (hgo : (!text.isEmpty && condHolds cond text && !manyOverflow maxB iters) = true)
    (hs : step text = some r) :
    manyGo step cond maxB (fuel + 1) text iters els =
      manyGo step cond maxB fuel r.rest (iters + 1) (els ++ [r.parsed]) := by
  rw [manyGo, if_pos hgo, hs]

/-- The `many` loop stops as soon as its go-on check fails. -/
theorem manyGo_stop {step : Str → Option PState} {cond : Option (Str → Bool)}
    {maxB fuel : Nat} {text : Str} {iters : Nat} {els : List Value}
    (hgo : (!text.isEmpty && condHolds cond text && !manyOverflow maxB iters) = false) :
    manyGo step cond maxB (fuel + 1) text iters els = some (els, text, iters) := by
  rw [manyGo, if_neg (by rw [hgo]; simp)]

/-- Inside `quoted`, the unbounded `many(item)` gated by "does not start
with the quote" consumes exactly the quote-free text `t` and stops on
the closing quote. -/
theorem manyGo_item_quote (fuelS : Nat) (w : Value) (c : Char) :
    ∀ t fuel iters els, c ∉ t → t.length < fuel →
      manyGo (fun tx => parseE fuelS PExpr.item ⟨w, tx⟩)
        (some fun tx => !(List.isPrefixOf [c] tx)) 0 fuel (t ++ [c]) iters els =
        some (els ++ t.map (fun a => Value.str [a]), [c], iters + t.length) := by
  intro t
  induction t with
  | nil =>
    intro fuel iters els hnotin hfuel
    cases fuel with
    | zero => omega
    | succ f =>
      rw [List.nil_append]
      rw [manyGo_stop (by simp [condHolds, List.isPrefixOf_iff_prefix])]
      simp
  | cons a t2 ih =>
    intro fuel iters els hnotin hfuel
    have hca : ¬ (c = a) := fun h => hnotin (h ▸ List.mem_cons_self a t2)
    cases fuel with
    | zero => omega
    | succ f =>
      rw [List.cons_append]
      have hpre : List.isPrefixOf [c] (a :: (t2 ++ [c])) = false := by
        rw [Bool.eq_false_iff, Ne, List.isPrefixOf_iff_prefix, List.cons_prefix_cons]
        exact fun hh => hca hh.1
      rw [manyGo_step_some
        (by simp [condHolds, hpre, manyOverflow])
        (show (fun tx => parseE fuelS PExpr.item ⟨w, tx⟩) (a :: (t2 ++ [c])) =
          some ⟨.str [a], t2 ++ [c]⟩ from rfl)]
      have hrec := ih f (iters + 1) (els ++ [Value.str [a]])
        (fun hmem => hnotin (List.mem_cons_of_mem a hmem)) (by simpa using hfuel)
      rw [hrec]
      have harr : (els ++ [Value.str [a]]) ++ t2.map (fun x => Value.str [x]) =
          els ++ (a :: t2).map (fun x => Value.str [x]) := by simp
      have hnat : iters + 1 + t2.length = iters + (a :: t2).length := by simp; omega
      rw [harr, hnat]

/-- Concatenating the singleton strings produced by `item` recovers the
text. -/
theorem foldr_join_singletons :
    ∀ t : Str, (t.map fun a => Value.str [a]).foldr (fun v acc => valueAsStr v ++ acc) [] = t := by
  intro t
  induction t with
  | nil => rfl
  | cons a t2 ih =>
    simp only [List.map_cons, List.foldr_cons, ih]
    rfl

/-- `cs.join('')` on those singletons is the original text. -/
theorem joinChars_singletons (t : Str) :
    joinChars (.list (t.map fun a => Value.str [a])) = .str t := by
  rw [joinChars, foldr_join_singletons]

/-- Counterexample for C5 as stated: with the two-character delimiter
`q = "aa"` and `t = "a"` (which contains no occurrence of `"aa"`), the
run on `q + t + q = "aaaaa"` succeeds but yields the empty interior, not
`t` — the gate "remainder does not start with the delimiter" already
fails on the overlap `"aaa"`, so the inner repetition stops at zero
characters and the closing delimiter match consumes the middle of the
input. -/
theorem quoted_overlap_counterexample :
    ¬ ((['a', 'a'] : Str) <:+: ['a']) ∧
    parseText 10 (quotedE ['a', 'a']) ['a', 'a', 'a', 'a', 'a'] = some ⟨.str [], ['a']⟩ ∧
    ([] : Str) ≠ ['a'] :=
  ⟨by decide, rfl, by simp⟩

/-- C5 (amended): for a single-character delimiter `q` and any text `t`
containing no occurrence of `q`, running `quoted(q)` on `q + t + q`
succeeds with value exactly `t` (and empty remainder).  Multi-character
delimiters can self-overlap with the interior, as the counterexample
shows, and are excluded. -/
theorem quoted_roundtrip (fuel : Nat) (c : Char) (t : Str)
    (hnotin : c ∉ t) (hfuel : t.length < fuel) :
    parseText fuel (quotedE [c]) (c :: (t ++ [c])) = some ⟨.str t, []⟩ := by
  have hopen : parseE fuel (.string [c]) ⟨.undefined, c :: (t ++ [c])⟩ =
      some ⟨.str [c], t ++ [c]⟩ := by
    rw [parseE, if_pos]
    · rfl
    · simp [List.isPrefixOf_iff_prefix, List.cons_prefix_cons]
  have hmany : parseE fuel
      (.many PExpr.item 0 0 (some fun text => !(List.isPrefixOf [c] text)))
      ⟨.str [c], t ++ [c]⟩ = some ⟨.list (t.map fun a => Value.str [a]), [c]⟩ := by
    rw [parseE]
    dsimp only
    rw [manyGo_item_quote fuel (.str [c]) c t fuel 0 [] hnotin hfuel]
    dsimp only
    rw [manyFinish, if_neg (by simp [manyOverflow, manyUnderflow])]
    simp
  have hclose : parseE fuel (.string [c]) ⟨.str t, [c]⟩ = some ⟨.str [c], []⟩ := by
    rw [parseE, if_pos]
    · rfl
    · simp [List.isPrefixOf_iff_prefix]
  rw [parseText, quotedE, parseE]
  rw [show parseE fuel
      (PExpr.seq (PExpr.string [c])
        (PExpr.fmap (PExpr.many PExpr.item 0 0 (some fun text => !(List.isPrefixOf [c] text)))
          joinChars))
      ⟨.undefined, c :: (t ++ [c])⟩ =
      some ⟨.str t, [c]⟩ from by
    rw [parseE, hopen]
    dsimp only
    rw [parseE, hmany]
    dsimp only
    rw [joinChars_singletons]]
  dsimp only
  rw [hclose]

/-- Witness for C5 (amended): `quoted('"')` on `"\"hi\""` returns `"hi"`. -/
theorem quoted_roundtrip_witness :
    parseText 10 (quotedE ['"']) ('"' :: ("hi".toList ++ ['"'])) =
      some ⟨.str "hi".toList, []⟩ :=
  quoted_roundtrip 10 '"' "hi".toList (by decide) (by decide)

/-! ## The mapping merge of `bind` -/

/-- Field lookup distributes over list append. -/
theorem getField_append (k : String) :
    ∀ xs ys : List (String × Value), getField k (xs ++ ys) =
      match getField k xs with
      | some v => some v
      | none => getField k ys := by
  intro xs ys
  induction xs with
  | nil => rfl
  | cons p xs2 ih =>
    obtain ⟨k1, v1⟩ := p
    rw [List.cons_append, getField, getField]
    by_cases hk : k1 = k
    · rw [if_pos hk, if_pos hk]
    · rw [if_neg hk, if_neg hk, ih]

/-- Lookup in the overwritten copy of the left mapping: present keys keep
their position but take the right mapping's value when it has one. -/
theorem getField_map_overwrite (k : String) (rm : List (String × Value)) :
    ∀ lm, getField k (lm.map fun p =>
        match getField p.1 rm with
        | some w => (p.1, w)
        | none => p) =
      match getField k lm with
      | some v =>
        match getField k rm with
        | some w => some w
        | none => some v
      | none => none := by
  intro lm
  induction lm with
  | nil => rfl
  | cons p lm2 ih =>
    obtain ⟨k1, v1⟩ := p
    rw [List.map_cons]
    by_cases hk : k1 = k
    · subst hk
      cases hr : getField k1 rm with
      | some w => simp [getField, hr]
      | none => simp [getField, hr]
    · cases hr : getField k1 rm with
      | some w => simp [getField, hr, hk, ih]
      | none => simp [getField, hr, hk, ih]

/-- Lookup of a key absent from the left mapping, in the filtered copy of
the right mapping (`Object.assign` appends exactly the right-only keys):
it agrees with lookup in the right mapping itself. -/
theorem getField_filter_new (k : String) (lm : List (String × Value)) (hk : getField k lm = none) :
    ∀ rm, getField k (rm.filter fun p => (getField p.1 lm).isNone) = getField k rm := by
  intro rm
  induction rm with
  | nil => rfl
  | cons p rm2 ih =>
    obtain ⟨k2, v2⟩ := p
    by_cases hkk : k2 = k
    · subst hkk
      rw [List.filter_cons, if_pos (by simp [hk]), getField, getField, if_pos rfl, if_pos rfl]
    · rw [List.filter_cons]
      by_cases hkeep : (getField k2 lm).isNone
      · rw [if_pos (by simp [hkeep]), getField, getField, if_neg hkk, if_neg hkk, ih]
      · rw [if_neg (by simp at hkeep ⊢; exact hkeep), getField, if_neg hkk, ih]

/-- The key-wise union produced by `Object.assign`: the right mapping's
binding wins on shared keys, and left-only keys keep their value. -/
theorem getField_objUnion (k : String) (lm rm : List (String × Value)) :
    getField k (objUnion lm rm) =
      match getField k rm with
      | some w => some w
      | none => getField k lm := by
  rw [objUnion, getField_append, getField_map_overwrite]
  cases hl : getField k lm with
  | some v =>
    cases hr : getField k rm with
    | some w => rfl
    | none => rfl
  | none =>
    dsimp only
    rw [getField_filter_new k lm hl rm]
    cases hr : getField k rm with
    | some w => rfl
    | none => rfl

/-- C6: `bind(P, Q)` runs `P`, then `Q` from `P`'s output state; it fails
if either side fails, and on double success with mapping-valued results
it returns the key-wise union of the two mappings (characterized by the
last conjunct: the right mapping's binding wins, left-only keys remain)
together with `Q`'s final remainder. -/
theorem bind_characterization (fuel : Nat) (P Q : PExpr) (input : PState) :
    (∀ l r lm rm, parseE fuel P input = some l → parseE fuel Q l = some r →
        l.parsed = .obj lm → r.parsed = .obj rm →
        parseE fuel (.bind P Q) input = some ⟨.obj (objUnion lm rm), r.rest⟩) ∧
    (parseE fuel P input = none → parseE fuel (.bind P Q) input = none) ∧
    (∀ l, parseE fuel P input = some l → parseE fuel Q l = none →
        parseE fuel (.bind P Q) input = none) ∧
    (∀ lm rm k, getField k (objUnion lm rm) =
        match getField k rm with
        | some w => some w
        | none => getField k lm) := by
  refine ⟨?_, ?_, ?_, ?_⟩
  · intro l r lm rm hp hq hl hr
    rw [parseE, hp]
    dsimp only
    rw [hq]
    dsimp only
    rw [hl, hr, assignValue]
  · intro hp
    rw [parseE, hp]
  · intro l hp hq
    rw [parseE, hp]
    dsimp only
    rw [hq]
  · intro lm rm k
    exact getField_objUnion k lm rm

/-- Witness for C6: the `bind` scenario of the test suite — `"Alice"`
saved as `first`, then `"Bob"` saved as `second`, merged over
`"AliceBobPete"`. -/
theorem bind_characterization_witness :
    parseE 10 (.bind ((PExpr.string "Alice".toList).save "first")
        ((PExpr.string "Bob".toList).save "second")) ⟨.undefined, "AliceBobPete".toList⟩ =
      some ⟨.obj (objUnion [("first", .str "Alice".toList)] [("second", .str "Bob".toList)]),
        "Pete".toList⟩ :=
  (bind_characterization 10 ((PExpr.string "Alice".toList).save "first")
      ((PExpr.string "Bob".toList).save "second") ⟨.undefined, "AliceBobPete".toList⟩).1
    ⟨.obj [("first", .str "Alice".toList)], "BobPete".toList⟩
    ⟨.obj [("second", .str "Bob".toList)], "Pete".toList⟩
    [("first", .str "Alice".toList)] [("second", .str "Bob".toList)] rfl rfl rfl rfl

/-- C9: when the two merged mappings share a key, the merged result maps
it to the right-hand parser's value, for `bind` as well as for
`bindInversed`. -/
theorem bind_right_overwrites (fuel : Nat) (P Q : PExpr) (key : Option String) (input : PState)
    (k : String) (v w : Value) :
    (∀ l r lm rm, parseE fuel P input = some l → parseE fuel Q l = some r →
        l.parsed = .obj lm → r.parsed = .obj rm →
        getField k lm = some v → getField k rm = some w →
        ∃ m, parseE fuel (.bind P Q) input = some ⟨.obj m, r.rest⟩ ∧ getField k m = some w) ∧
    (∀ l r lm rm, parseE fuel P input = some l →
        parseE fuel Q ⟨.undefined, valueAsStr (extractVal key l.parsed)⟩ = some r →
        l.parsed = .obj lm → r.parsed = .obj rm →
        getField k lm = some v → getField k rm = some w →
        ∃ m, parseE fuel (.bindInversed P Q key) input = some ⟨.obj m, l.rest⟩ ∧
          getField k m = some w) := by
  constructor
  · intro l r lm rm hp hq hl hr hkl hkr
    refine ⟨objUnion lm rm, ?_, ?_⟩
    · rw [parseE, hp]
      dsimp only
      rw [hq]
      dsimp only
      rw [hl, hr, assignValue]
    · rw [getField_objUnion, hkr]
  · intro l r lm rm hp hq hl hr hkl hkr
    refine ⟨objUnion lm rm, ?_, ?_⟩
    · rw [parseE, hp]
      dsimp only
      rw [hq]
      dsimp only
      rw [hl, hr, assignValue]
    · rw [getField_objUnion, hkr]

/-- Witness for C9: two saves under the same key `"k"`; the merged
mapping holds the right parser's value `"cd"`. -/
theorem bind_right_overwrites_witness :
    ∃ m, parseE 10 (.bind ((PExpr.string "ab".toList).save "k")
        ((PExpr.string "cd".toList).save "k")) ⟨.undefined, "abcd".toList⟩ =
      some ⟨.obj m, []⟩ ∧ getField "k" m = some (.str "cd".toList) :=
  (bind_right_overwrites 10 ((PExpr.string "ab".toList).save "k")
      ((PExpr.string "cd".toList).save "k") none ⟨.undefined, "abcd".toList⟩ "k"
      (.str "ab".toList) (.str "cd".toList)).1
    ⟨.obj [("k", .str "ab".toList)], "cd".toList⟩
    ⟨.obj [("k", .str "cd".toList)], []⟩
    [("k", .str "ab".toList)] [("k", .str "cd".toList)] rfl rfl rfl rfl rfl rfl

/-! ## The interleave scanner -/

/-- The source's accumulator loop and the spec's narrative agree: the
spec-side scanner equals the code-side loop with the pending characters
flushed into the element sequence. -/
theorem interleaveSpec_repeatGo {step : Str → Option PState} {conv : Str → Value}
    {cond : Str → Bool} :
    ∀ fuel text chars els,
      interleaveSpec step conv cond fuel text chars els =
        (repeatGo step conv cond fuel text chars els).map
          (fun res => (flushText conv res.1 res.2.1, res.2.2)) := by
  intro fuel
  induction fuel with
  | zero => intro text chars els; rfl
  | succ f ih =>
    intro text chars els
    rw [interleaveSpec, repeatGo]
    split
    · cases hs : step text with
      | some r =>
        dsimp only
        rw [ih]
        have hout : (if chars.isEmpty then els ++ [r.parsed]
            else els ++ [conv chars, r.parsed]) = flushText conv els chars ++ [r.parsed] := by
          rw [flushText]
          split
          · rfl
          · simp
        rw [hout]
      | none =>
        dsimp only
        rw [ih]
    · simp [flushText]

/-- C3: `Parser.repeat(E, f, cond)` computes exactly the interleave
scanner described by the spec: while `cond` holds on a non-empty
remainder, each success of `E` first flushes the pending accumulated raw
characters through `f` as one entry and then appends `E`'s value,
advancing to `E`'s remainder, while each failure moves exactly one
character into the pending accumulator; after the loop the pending text
is flushed, and the parser fails exactly when the produced sequence is
empty, otherwise returning the ordered sequence and final remainder. -/
theorem repeat_matches_interleave_spec (fuel : Nat) (E : PExpr) (f : Str → Value)
    (cond : Str → Bool) (input : PState) :
    parseE fuel (.repeatE E f cond) input =
      interleaveRun (fun t => parseE fuel E ⟨.obj [], t⟩) f cond fuel input.rest := by
  rw [parseE, interleaveRun, interleaveSpec_repeatGo]
  cases hm : repeatGo (fun t => parseE fuel E ⟨.obj [], t⟩) f cond fuel input.rest [] [] with
  | none => rfl
  | some res =>
    obtain ⟨els, chars, text2⟩ := res
    rfl

/-! ## Termination of the repetition loops -/

/-- With a strictly consuming step, the `many` loop completes on any
fuel exceeding the input length. -/
theorem manyGo_total {step : Str → Option PState} {cond : Option (Str → Bool)} {maxB : Nat}
    (hcons : ∀ t r, step t = some r → r.rest.length < t.length) :
    ∀ fuel text iters els, text.length < fuel →
      ∃ res, manyGo step cond maxB fuel text iters els = some res := by
  intro fuel
  induction fuel with
  | zero => intro text iters els hlen; omega
  | succ f ih =>
    intro text iters els hlen
    rw [manyGo]
    split
    · cases hs : step text with
      | none => exact ⟨(els, text, iters), rfl⟩
      | some r =>
        obtain ⟨res, hres⟩ := ih r.rest (iters + 1) (els ++ [r.parsed])
          (by have := hcons _ _ hs; omega)
        exact ⟨res, hres⟩
    · exact ⟨(els, text, iters), rfl⟩

/-- With a strictly consuming step, the `repeat` loop also completes:
each iteration either advances through the element parser's success or
drops exactly one character. -/
theorem repeatGo_total {step : Str → Option PState} {fromText : Str → Value} {cond : Str → Bool}
    (hcons : ∀ t r, step t = some r → r.rest.length < t.length) :
    ∀ fuel text chars els, text.length < fuel →
      ∃ res, repeatGo step fromText cond fuel text chars els = some res := by
  intro fuel
  induction fuel with
  | zero => intro text chars els hlen; omega
  | succ f ih =>
    intro text chars els hlen
    rw [repeatGo]
    split
    · next hgo =>
      cases hs : step text with
      | some r =>
        obtain ⟨res, hres⟩ := ih r.rest [] (flushText fromText els chars ++ [r.parsed])
          (by have := hcons _ _ hs; omega)
        exact ⟨res, hres⟩
      | none =>
        have htext : text ≠ [] := by
          simp only [Bool.and_eq_true, Bool.not_eq_true', List.isEmpty_eq_false] at hgo
          exact hgo.1
        obtain ⟨res, hres⟩ := ih (text.drop 1) (chars ++ text.take 1) els
          (by cases text with
            | nil => exact absurd rfl htext
            | cons a as => simp at hlen ⊢; omega)
        exact ⟨res, hres⟩
    · exact ⟨(els, chars, text), rfl⟩

/-- A succeeding non-consuming parser (`result`) makes the `many` loop
spin forever: every fuel budget is exhausted. -/
theorem manyGo_result_diverges (fuelS : Nat) (v pv : Value) :
    ∀ fuel iters els,
      manyGo (fun t => parseE fuelS (.result v) ⟨pv, t⟩) none 0 fuel ['a'] iters els = none := by
  intro fuel
  induction fuel with
  | zero => intro iters els; rfl
  | succ f ih =>
    intro iters els
    rw [manyGo_step_some (by simp [condHolds, manyOverflow])
      (show (fun t => parseE fuelS (.result v) ⟨pv, t⟩) ['a'] = some ⟨v, ['a']⟩ from rfl)]
    exact ih (iters + 1) (els ++ [v])

/-- The same non-consuming parser makes the `repeat` loop spin forever. -/
theorem repeatGo_result_diverges (fuelS : Nat) (v : Value) (f : Str → Value) :
    ∀ fuel chars els,
      repeatGo (fun t => parseE fuelS (.result v) ⟨.obj [], t⟩) f (fun _ => true)
        fuel ['a'] chars els = none := by
  intro fuel
  induction fuel with
  | zero => intro chars els; rfl
  | succ f2 ih =>
    intro chars els
    rw [repeatGo, if_pos (by simp)]
    rw [show parseE fuelS (PExpr.result v) ⟨Value.obj [], ['a']⟩ = some ⟨v, ['a']⟩ from rfl]
    exact ih [] (flushText f els chars ++ [v])

/-- C10: if the inner parser strictly consumes input on every success,
both repetition loops terminate on every finite input for all bounds and
conditions (first two conjuncts: the loop completes once the fuel
exceeds the remaining length); and the precondition is necessary — with
the succeeding, non-consuming `result` parser both `many` and
`Parser.repeat` fail to produce an outcome for every fuel budget,
i.e. the loops run forever (last two conjuncts). -/
theorem repetition_terminates_iff_consuming :
    (∀ (P : PExpr) (pv : Value) (cond : Option (Str → Bool)) (maxB fuel : Nat) (text : Str)
        (iters : Nat) (els : List Value),
      (∀ t r, parseE fuel P ⟨pv, t⟩ = some r → r.rest.length < t.length) →
      text.length < fuel →
      ∃ res, manyGo (fun t => parseE fuel P ⟨pv, t⟩) cond maxB fuel text iters els = some res) ∧
    (∀ (E : PExpr) (f : Str → Value) (cond : Str → Bool) (fuel : Nat) (text chars : Str)
        (els : List Value),
      (∀ t r, parseE fuel E ⟨.obj [], t⟩ = some r → r.rest.length < t.length) →
      text.length < fuel →
      ∃ res, repeatGo (fun t => parseE fuel E ⟨.obj [], t⟩) f cond fuel text chars els
        = some res) ∧
    (∀ (fuel : Nat) (v pv : Value),
      parseE fuel (.many (.result v) 0 0 none) ⟨pv, ['a']⟩ = none) ∧
    (∀ (fuel : Nat) (v : Value) (f : Str → Value),
      parseE fuel (.repeatE (.result v) f (fun _ => true)) ⟨.undefined, ['a']⟩ = none) := by
  refine ⟨?_, ?_, ?_, ?_⟩
  · intro P pv cond maxB fuel text iters els hcons hlen
    exact manyGo_total hcons fuel text iters els hlen
  · intro E f cond fuel text chars els hcons hlen
    exact repeatGo_total hcons fuel text chars els hlen
  · intro fuel v pv
    rw [parseE]
    dsimp only
    rw [manyGo_result_diverges fuel v pv fuel 0 []]
  · intro fuel v f
    rw [parseE]
    dsimp only
    rw [repeatGo_result_diverges fuel v f fuel [] []]

/-- Witness for C10: `char 'a'` consumes strictly, so the `many` loop
over `"ab"` completes within fuel 5. -/
theorem repetition_terminates_witness :
    ∃ res, manyGo (fun t => parseE 5 (.char 'a') ⟨.undefined, t⟩) none 0 5 ['a', 'b'] 0 []
      = some res :=
  repetition_terminates_iff_consuming.1 (.char 'a') .undefined none 0 5 ['a', 'b'] 0 []
    (char_consumes 5 'a' .undefined) (by decide)
